import Mathlib

/-!
Verification of the MemoryMap container (src/MemoryMap.py)

Shallow embedding of `MemoryMap.create` and `MemoryMap.open`.  Bytes are
modelled as `List Nat` (each entry one byte value).  Python's `struct.pack('Q', x)`
writes 8 little-endian bytes and raises for `x` outside `[0, 2^64)`; we model the
byte layout and restrict theorems to in-range values.  File contents are modelled
by an association list from path strings to byte lists, plus a list of existing
directories (for `os.mkdir` / `os.path.isdir`).  Exceptions are modelled by
`Except`: the `MMError` constructors correspond to the Python exceptions raised
at the respective program points (all `ValueError`/`struct.error` in the source;
named here after the spec's error taxonomy).
-/

namespace MemoryMap

abbrev Bytes := List Nat

/-- Error taxonomy.  `validation` = `ValueError` from the length check in
`create`; `notFound` = `ValueError` ("does not exist") / `FileNotFoundError`;
`corrupt` = `struct.error` from `unpack` on a short read; `badTypeTag` =
`ValueError` from `int(dtypes[i][2:])`. -/
inductive MMError where
  | validation
  | notFound
  | corrupt
  | badTypeTag
deriving DecidableEq, Repr

/-- `struct.pack('Q', x)`: 8 little-endian bytes.  (Python raises for
`x ≥ 2^64`; theorems carry that bound as a hypothesis.) -/
def packQ (x : Nat) : Bytes :=
  [x % 256, x / 256 % 256, x / 256 ^ 2 % 256, x / 256 ^ 3 % 256,
   x / 256 ^ 4 % 256, x / 256 ^ 5 % 256, x / 256 ^ 6 % 256, x / 256 ^ 7 % 256]

/-- `struct.unpack('Q', bs)` on an exactly-8-byte buffer (the caller checks the
length; the `_` branch is unreachable there). -/
def unpackQ (bs : Bytes) : Nat :=
  match bs with
  | [b0, b1, b2, b3, b4, b5, b6, b7] =>
      b0 + 256 * b1 + 256 ^ 2 * b2 + 256 ^ 3 * b3 + 256 ^ 4 * b4 +
        256 ^ 5 * b5 + 256 ^ 6 * b6 + 256 ^ 7 * b7
  | _ => 0

/-- The whitespace bytes removed by Python's `bytes.strip()`. -/
def isPySpace (b : Nat) : Bool :=
  b == 32 || b == 9 || b == 10 || b == 13 || b == 11 || b == 12

/-- Python's `bytes.strip()`: remove leading and trailing whitespace bytes. -/
def strip (bs : Bytes) : Bytes :=
  ((bs.dropWhile isPySpace).reverse.dropWhile isPySpace).reverse

/-- `numpy.dtype(t).str.ljust(8).encode()` applied to the canonical tag bytes:
pad on the right with spaces to length 8 (a longer tag is left unchanged,
exactly as `ljust`). -/
def padTag (t : Bytes) : Bytes :=
  t ++ List.replicate (8 - t.length) 32

/-- The bytes `create` writes for one array: padded type tag, dimension count,
then each dimension length (lines 49-52 of src/MemoryMap.py). -/
def encodeDescriptor (t : Bytes) (s : List Nat) : Bytes :=
  padTag t ++ packQ s.length ++ (s.map packQ).flatten

/-- The full header bytes `create` writes (lines 46-52): array count, then the
per-array descriptor fields.  `create` iterates `range(len(dtypes))` indexing
both lists; with the validated equal lengths this is exactly `zipWith`. -/
def encode (dtypes : List Bytes) (shapes : List (List Nat)) : Bytes :=
  packQ dtypes.length ++ (List.zipWith encodeDescriptor dtypes shapes).flatten

/-- `unpack('Q', infile.read(8))`: a read near end-of-file returns the bytes
that remain without error, and `unpack` then raises `struct.error` unless it
got exactly 8 bytes. -/
def readQ (bs : Bytes) : Except MMError (Nat × Bytes) :=
  if 8 ≤ bs.length then .ok (unpackQ (bs.take 8), bs.drop 8) else .error .corrupt

/-- The inner loop of `open` (lines 77-78): read `s` dimension lengths. -/
def readDims : Nat → Bytes → Except MMError (List Nat × Bytes)
  | 0, bs => .ok ([], bs)
  | s + 1, bs =>
    match readQ bs with
    | .error e => .error e
    | .ok (d, bs1) =>
      match readDims s bs1 with
      | .error e => .error e
      | .ok (ds, bs2) => .ok (d :: ds, bs2)

/-- One iteration of the per-array loop of `open` (lines 73-79): the type tag
read (`infile.read(8).strip()`, lenient at end-of-file), the dimension count,
then the dimension lengths. -/
def readDescr (bs : Bytes) : Except MMError ((Bytes × List Nat) × Bytes) :=
  let tag := strip (bs.take 8)
  let bs1 := bs.drop 8
  match readQ bs1 with
  | .error e => .error e
  | .ok (s, bs2) =>
    match readDims s bs2 with
    | .error e => .error e
    | .ok (shape, bs3) => .ok ((tag, shape), bs3)

/-- The per-array loop of `open`: read `n` descriptors. -/
def readDescrs : Nat → Bytes → Except MMError (List (Bytes × List Nat) × Bytes)
  | 0, bs => .ok ([], bs)
  | n + 1, bs =>
    match readDescr bs with
    | .error e => .error e
    | .ok (d, bs1) =>
      match readDescrs n bs1 with
      | .error e => .error e
      | .ok (ds, bs2) => .ok (d :: ds, bs2)

/-- The header-reading phase of `open` (lines 70-79): the array count, then the
descriptors.  Returns the decoded `(tag, shape)` list and the unread remainder
of the stream (so `infile.tell()` is the input length minus the remainder's). -/
def decodeHeader (bs : Bytes) : Except MMError (List (Bytes × List Nat) × Bytes) :=
  match readQ bs with
  | .error e => .error e
  | .ok (n, bs1) => readDescrs n bs1

def isDigit (b : Nat) : Bool := 48 ≤ b && b ≤ 57

/-- Digit run with optional single underscores between digits, as accepted by
Python's `int` after the sign: `digit (underscore? digit)*`.  The accumulator
carries the value of the digits consumed so far (95 is the underscore byte). -/
def pyDigits : Bytes → Nat → Option Nat
  | [], acc => some acc
  | b :: rest, acc =>
    if isDigit b then pyDigits rest (10 * acc + (b - 48))
    else if b = 95 then
      match rest with
      | [] => none
      | c :: rest2 =>
        if isDigit c then pyDigits rest2 (10 * acc + (c - 48)) else none
    else none

/-- Python's `int(bs)` on a byte string (`ValueError` modelled as `none`):
optional surrounding whitespace, an optional sign (43 is `+`, 45 is `-`), then
a nonempty digit run with optional single underscores between digits. -/
def pyInt (bs : Bytes) : Option Int :=
  let t := ((bs.dropWhile isPySpace).reverse.dropWhile isPySpace).reverse
  match t with
  | [] => none
  | b :: rest =>
    if b = 43 then
      match rest with
      | [] => none
      | c :: rest2 =>
        if isDigit c then (pyDigits rest2 (c - 48)).map Int.ofNat else none
    else if b = 45 then
      match rest with
      | [] => none
      | c :: rest2 =>
        if isDigit c then (pyDigits rest2 (c - 48)).map (fun n => -(n : Int)) else none
    else if isDigit b then (pyDigits rest (b - 48)).map Int.ofNat
    else none

/-- A 64-bit wrapped value read back as a signed int64: reduce modulo `2^64`,
then values at or above `2^63` represent negatives. -/
def toInt64 (x : Nat) : Int :=
  if x % 2 ^ 64 < 2 ^ 63 then ((x % 2 ^ 64 : Nat) : Int)
  else ((x % 2 ^ 64 : Nat) : Int) - 2 ^ 64

/-- `int(numpy.product(s))` for a nonempty tuple of decoded dimension lengths
(each in `[0, 2^64)`): numpy converts the tuple to an int64 array when every
element fits a signed 64-bit integer and to uint64 otherwise, and its product
reduction wraps silently modulo `2^64` (signed or unsigned respectively), so
for products at or above `2^63` the Python int this yields is not the ordinary
product — it can even be negative. -/
def pyProduct (s : List Nat) : Int :=
  if s.all (fun d => d < 2 ^ 63) then toInt64 s.prod
  else ((s.prod % 2 ^ 64 : Nat) : Int)

/-- Line 86: `int(numpy.product(shapes[i])) if shapes[i] else 0` — the wrapped
64-bit product of the dimension lengths for a nonempty shape, and 0 for the
empty shape. -/
def prodOrZero (s : List Nat) : Int :=
  if s.isEmpty then 0 else pyProduct s

/-- The item sizes `int(dtypes[i][2:])` for each decoded descriptor (line 87);
`none` if any tag's suffix fails Python's integer parse. -/
def itemSizes : List (Bytes × List Nat) → Option (List Int)
  | [] => some []
  | d :: rest =>
    match pyInt (d.1.drop 2), itemSizes rest with
    | some z, some zs => some (z :: zs)
    | _, _ => none

/-- The offset loop of `open` (lines 82-87): starting from the file position
after the header, append `previous + itemSize * product(shape)` for each
array.  Offsets are Python ints, so `Int` (a crafted tag can parse to a
negative item size). -/
def offsetsFrom (o : Int) : List (Int × Bytes) → List Int
  | [] => [o]
  | p :: rest => o :: offsetsFrom (o + p.1 * prodOrZero p.2) rest

/-- Model of the filesystem state touched by `create`/`open`: file contents by
path, and the set of existing directories. -/
structure FS where
  files : List (String × Bytes)
  dirs : List String
deriving DecidableEq

def lookupFile (fs : FS) (p : String) : Option Bytes := fs.files.lookup p

/-- `os.path.isfile`. -/
def isFile (fs : FS) (p : String) : Bool := (lookupFile fs p).isSome

/-- `os.remove`. -/
def removeFile (fs : FS) (p : String) : FS :=
  { fs with files := fs.files.filter (fun kv => kv.1 ≠ p) }

/-- Writing the whole contents of a file (`open(fileName, 'wb')` + writes). -/
def writeFile (fs : FS) (p : String) (bs : Bytes) : FS :=
  { fs with files := (p, bs) :: fs.files.filter (fun kv => kv.1 ≠ p) }

/-- `os.path.split(fileName)[0]`: the part before the last slash (empty when
there is no slash). -/
def parentDir (p : String) : String :=
  ⟨((p.toList.reverse.dropWhile (fun c => c ≠ '/')).drop 1).reverse⟩

/-- `MemoryMap.create` (lines 34-52): validate the lengths, remove an existing
file, create a missing single-level parent directory (`os.mkdir` itself raises
`FileNotFoundError` when the parent's parent is also missing), then write the
encoded header.  The result pairs the outcome with the filesystem state after
the call. -/
def create (fs : FS) (fileName : String) (dtypes : List Bytes)
    (shapes : List (List Nat)) : Except MMError Unit × FS :=
  if dtypes.length ≠ shapes.length then (.error .validation, fs)
  else
    let fs1 := if isFile fs fileName then removeFile fs fileName else fs
    let path := parentDir fileName
    if path ≠ "" ∧ path ∉ fs1.dirs then
      if parentDir path ≠ "" ∧ parentDir path ∉ fs1.dirs then
        (.error .notFound, fs1)
      else
        (.ok (), writeFile { fs1 with dirs := path :: fs1.dirs } fileName
          (encode dtypes shapes))
    else
      (.ok (), writeFile fs1 fileName (encode dtypes shapes))

/-- The view request `open` hands to the external mapping facility
(`numpy.memmap(fileName, dtype=..., shape=..., mode=..., offset=...)`,
lines 89-90). -/
structure View where
  fileName : String
  dtype : Bytes
  shape : List Nat
  mode : String
  offset : Int
deriving DecidableEq

/-- `MemoryMap.open` (lines 64-90): check the file exists, decode the header,
compute the offsets, and request one view per array, each carrying the caller's
`mode` and the array's offset (`offsets[i] for i in range(n)`). -/
def openMM (fs : FS) (fileName : String) (mode : String) :
    Except MMError (List View) :=
  match lookupFile fs fileName with
  | none => .error .notFound
  | some bs =>
    match decodeHeader bs with
    | .error e => .error e
    | .ok (descrs, rest) =>
      match itemSizes descrs with
      | none => .error .badTypeTag
      | some szs =>
        let tell : Int := (bs.length - rest.length : Nat)
        let offs := offsetsFrom tell (szs.zip (descrs.map (fun d => d.2)))
        .ok (List.zipWith
          (fun d o => { fileName := fileName, dtype := d.1, shape := d.2,
                        mode := mode, offset := o })
          descrs offs)

/-- A valid canonical type tag: nonempty, at most 8 bytes (so the padded field
is exactly 8 bytes and fields stay aligned), free of the whitespace bytes that
`strip` removes, and with a suffix `tag[2:]` that Python's `int` accepts (every
tag the library itself produces, e.g. `"|b1"`, `"<f4"`, `"|S50"`, satisfies
all four). -/
def validTag (t : Bytes) : Prop :=
  t ≠ [] ∧ t.length ≤ 8 ∧ (∀ b ∈ t, isPySpace b = false) ∧
    (pyInt (t.drop 2)).isSome = true

/-- A valid `(typeTags, shapes)` input to `create`: matching lengths, counts
and dimension lengths representable as unsigned 64-bit values (`pack('Q', ·)`
raises otherwise), and valid tags. -/
def validInput (tags : List Bytes) (shapes : List (List Nat)) : Prop :=
  tags.length = shapes.length ∧ tags.length < 2 ^ 64 ∧
    (∀ t ∈ tags, validTag t) ∧
    (∀ s ∈ shapes, s.length < 2 ^ 64 ∧ ∀ d ∈ s, d < 2 ^ 64)

/-- A nonempty all-digits byte string (a plain decimal numeral). -/
def isNumeral (bs : Bytes) : Prop := bs ≠ [] ∧ ∀ b ∈ bs, isDigit b = true

instance (t : Bytes) : Decidable (validTag t) := by
  unfold validTag; infer_instance

instance (tags : List Bytes) (shapes : List (List Nat)) :
    Decidable (validInput tags shapes) := by
  unfold validInput; infer_instance

instance (bs : Bytes) : Decidable (isNumeral bs) := by
  unfold isNumeral; infer_instance

/-- The value of a decimal numeral. -/
def numVal (bs : Bytes) : Nat := bs.foldl (fun a b => 10 * a + (b - 48)) 0

/-- The spec's offset example: `typeTags=[uint8,int16,float32,bytes50,uint32]`
as canonical tags `["|u1","<i2","<f4","|S50","<u4"]`. -/
def exampleTags : List Bytes :=
  [[124, 117, 49], [60, 105, 50], [60, 102, 52], [124, 83, 53, 48], [60, 117, 52]]

/-- The spec's offset example shapes `[(10,), (), (4,3,2), (1,), (2,2)]`. -/
def exampleShapes : List (List Nat) := [[10], [], [4, 3, 2], [1], [2, 2]]

/-! ## Basic lemmas about the byte-level codec -/

theorem packQ_length (x : Nat) : (packQ x).length = 8 := rfl

theorem unpackQ_packQ (x : Nat) (h : x < 2 ^ 64) : unpackQ (packQ x) = x := by
  show x % 256 + 256 * (x / 256 % 256) + 256 ^ 2 * (x / 256 ^ 2 % 256) +
      256 ^ 3 * (x / 256 ^ 3 % 256) + 256 ^ 4 * (x / 256 ^ 4 % 256) +
      256 ^ 5 * (x / 256 ^ 5 % 256) + 256 ^ 6 * (x / 256 ^ 6 % 256) +
      256 ^ 7 * (x / 256 ^ 7 % 256) = x
  omega

theorem packQ_append_take (x : Nat) (r : Bytes) : (packQ x ++ r).take 8 = packQ x :=
  List.take_left' (packQ_length x)

theorem packQ_append_drop (x : Nat) (r : Bytes) : (packQ x ++ r).drop 8 = r :=
  List.drop_left' (packQ_length x)

theorem readQ_packQ (x : Nat) (r : Bytes) (h : x < 2 ^ 64) :
    readQ (packQ x ++ r) = .ok (x, r) := by
  have hl : 8 ≤ (packQ x ++ r).length := by simp [packQ]
  rw [readQ, if_pos hl, packQ_append_take, packQ_append_drop, unpackQ_packQ x h]

theorem readQ_short (bs : Bytes) (h : bs.length < 8) : readQ bs = .error .corrupt := by
  simp [readQ]
  omega

theorem padTag_length (t : Bytes) (h : t.length ≤ 8) : (padTag t).length = 8 := by
  simp [padTag]
  omega

theorem flatten_map_packQ_length (s : List Nat) :
    ((s.map packQ).flatten).length = 8 * s.length := by
  induction s with
  | nil => rfl
  | cons d ds ih =>
    simp only [List.map_cons, List.flatten_cons, List.length_append, ih,
      packQ_length, List.length_cons]
    omega

theorem encodeDescriptor_length (t : Bytes) (s : List Nat) (h : t.length ≤ 8) :
    (encodeDescriptor t s).length = 16 + 8 * s.length := by
  simp only [encodeDescriptor, List.length_append, padTag_length t h,
    packQ_length, flatten_map_packQ_length]

/-! ## `strip` undoes the space padding of a whitespace-free tag -/

theorem dropWhile_replicate_append (p : Nat → Bool) (a : Nat) (k : Nat) (l : Bytes)
    (h : p a = true) :
    (List.replicate k a ++ l).dropWhile p = l.dropWhile p := by
  induction k with
  | zero => rfl
  | succ k ih => simp [List.replicate_succ, List.dropWhile_cons, h, ih]

theorem dropWhile_of_head (p : Nat → Bool) (a : Nat) (l : Bytes) (h : p a = false) :
    (a :: l).dropWhile p = a :: l := by
  simp [List.dropWhile_cons, h]

theorem strip_padTag (t : Bytes) (hne : t ≠ [])
    (hsp : ∀ b ∈ t, isPySpace b = false) : strip (padTag t) = t := by
  obtain ⟨l, a, ht⟩ := (List.eq_nil_or_concat t).resolve_left hne
  rw [List.concat_eq_append] at ht
  subst ht
  have ha : isPySpace a = false := hsp a (by simp)
  have h1 : (padTag (l ++ [a])).dropWhile isPySpace = padTag (l ++ [a]) := by
    rcases l with _ | ⟨b, l⟩
    · rw [List.nil_append]
      exact dropWhile_of_head isPySpace a _ ha
    · exact dropWhile_of_head isPySpace b _ (hsp b (by simp))
  have h2 : (padTag (l ++ [a])).reverse.dropWhile isPySpace = (l ++ [a]).reverse := by
    unfold padTag
    rw [List.reverse_append, List.reverse_replicate,
      dropWhile_replicate_append isPySpace 32 (8 - (l ++ [a]).length)
        ((l ++ [a]).reverse) rfl]
    simpa [List.reverse_append] using dropWhile_of_head isPySpace a l.reverse ha
  rw [strip, h1, h2, List.reverse_reverse]

/-! ## Decoding a complete header succeeds and recovers the descriptors -/

theorem readDims_encode (s : List Nat) (r : Bytes) (h : ∀ d ∈ s, d < 2 ^ 64) :
    readDims s.length ((s.map packQ).flatten ++ r) = .ok (s, r) := by
  induction s with
  | nil => rfl
  | cons d ds ih =>
    have h1 : readQ (packQ d ++ ((ds.map packQ).flatten ++ r)) =
        .ok (d, (ds.map packQ).flatten ++ r) :=
      readQ_packQ d _ (h d (by simp))
    simp only [List.map_cons, List.flatten_cons, List.length_cons,
      List.append_assoc, readDims, h1,
      ih (fun x hx => h x (List.mem_cons_of_mem d hx))]

theorem readDescr_encode (t : Bytes) (s : List Nat) (r : Bytes)
    (ht : t ≠ []) (htl : t.length ≤ 8) (hsp : ∀ b ∈ t, isPySpace b = false)
    (hsl : s.length < 2 ^ 64) (hd : ∀ d ∈ s, d < 2 ^ 64) :
    readDescr (encodeDescriptor t s ++ r) = .ok ((t, s), r) := by
  have hassoc : encodeDescriptor t s ++ r =
      padTag t ++ (packQ s.length ++ ((s.map packQ).flatten ++ r)) := by
    simp [encodeDescriptor]
  have e1 : (encodeDescriptor t s ++ r).take 8 = padTag t := by
    rw [hassoc]; exact List.take_left' (padTag_length t htl)
  have e2 : (encodeDescriptor t s ++ r).drop 8 =
      packQ s.length ++ ((s.map packQ).flatten ++ r) := by
    rw [hassoc]; exact List.drop_left' (padTag_length t htl)
  simp only [readDescr, e1, e2, strip_padTag t ht hsp, readQ_packQ s.length _ hsl,
    readDims_encode s r hd]

theorem readDescrs_encode (ds : List (Bytes × List Nat)) (r : Bytes)
    (hv : ∀ d ∈ ds, d.1 ≠ [] ∧ d.1.length ≤ 8 ∧ (∀ b ∈ d.1, isPySpace b = false) ∧
      d.2.length < 2 ^ 64 ∧ ∀ x ∈ d.2, x < 2 ^ 64) :
    readDescrs ds.length
      ((ds.map (fun d => encodeDescriptor d.1 d.2)).flatten ++ r) = .ok (ds, r) := by
  induction ds with
  | nil => rfl
  | cons d ds ih =>
    obtain ⟨h1, h2, h3, h4, h5⟩ := hv d (by simp)
    have hr : readDescr (encodeDescriptor d.1 d.2 ++
        ((ds.map (fun d => encodeDescriptor d.1 d.2)).flatten ++ r)) =
        .ok ((d.1, d.2), (ds.map (fun d => encodeDescriptor d.1 d.2)).flatten ++ r) :=
      readDescr_encode d.1 d.2 _ h1 h2 h3 h4 h5
    simp only [List.map_cons, List.flatten_cons, List.length_cons,
      List.append_assoc, readDescrs, hr,
      ih (fun x hx => hv x (List.mem_cons_of_mem d hx))]

theorem zipWith_encodeDescriptor_eq (tags : List Bytes) (shapes : List (List Nat)) :
    List.zipWith encodeDescriptor tags shapes =
      (tags.zip shapes).map (fun d => encodeDescriptor d.1 d.2) := by
  induction tags generalizing shapes with
  | nil => simp
  | cons t ts ih =>
    cases shapes with
    | nil => simp
    | cons s ss => simp [List.zip_cons_cons, ih]

theorem decodeHeader_encode (tags : List Bytes) (shapes : List (List Nat))
    (r : Bytes) (hv : validInput tags shapes) :
    decodeHeader (encode tags shapes ++ r) = .ok (tags.zip shapes, r) := by
  obtain ⟨heq, hn, htags, hshapes⟩ := hv
  have hlen : (tags.zip shapes).length = tags.length := by
    simp [List.length_zip, heq]
  have hds : readDescrs (tags.zip shapes).length
      (((tags.zip shapes).map (fun d => encodeDescriptor d.1 d.2)).flatten ++ r) =
      .ok (tags.zip shapes, r) := by
    refine readDescrs_encode (tags.zip shapes) r (fun d hd => ?_)
    obtain ⟨hd1, hd2⟩ := List.of_mem_zip hd
    obtain ⟨v1, v2, v3, _⟩ := htags d.1 hd1
    obtain ⟨w1, w2⟩ := hshapes d.2 hd2
    exact ⟨v1, v2, v3, w1, w2⟩
  rw [hlen] at hds
  have hq : readQ (packQ tags.length ++
      (((tags.zip shapes).map (fun d => encodeDescriptor d.1 d.2)).flatten ++ r)) =
      .ok (tags.length,
        ((tags.zip shapes).map (fun d => encodeDescriptor d.1 d.2)).flatten ++ r) :=
    readQ_packQ tags.length _ hn
  simp only [decodeHeader, encode, List.append_assoc,
    zipWith_encodeDescriptor_eq, hq, hds]

theorem encode_length (tags : List Bytes) (shapes : List (List Nat))
    (heq : tags.length = shapes.length) (htl : ∀ t ∈ tags, t.length ≤ 8) :
    (encode tags shapes).length =
      8 + (shapes.map (fun s => 16 + 8 * s.length)).sum := by
  have : ∀ (ts : List Bytes) (ss : List (List Nat)), ts.length = ss.length →
      (∀ t ∈ ts, t.length ≤ 8) →
      ((List.zipWith encodeDescriptor ts ss).flatten).length =
        (ss.map (fun s => 16 + 8 * s.length)).sum := by
    intro ts
    induction ts with
    | nil => intro ss h _; cases ss with
      | nil => rfl
      | cons s ss => simp at h
    | cons t ts ih =>
      intro ss h htl2
      cases ss with
      | nil => simp at h
      | cons s ss =>
        simp only [List.zipWith_cons_cons, List.flatten_cons, List.length_append,
          List.map_cons, List.sum_cons,
          encodeDescriptor_length t s (htl2 t (by simp)),
          ih ss (by simpa using h) (fun x hx => htl2 x (List.mem_cons_of_mem t hx))]
  simp only [encode, List.length_append, packQ_length, this tags shapes heq htl]

/-! ## Facts about `create`, the item-size parse, and the offset loop -/

theorem lookupFile_writeFile (fs : FS) (p : String) (bs : Bytes) :
    lookupFile (writeFile fs p bs) p = some bs := by
  simp [lookupFile, writeFile, List.lookup]

/-- When `create` succeeds, the path holds exactly the encoded header. -/
theorem create_ok_file (fs : FS) (p : String) (tags : List Bytes)
    (shapes : List (List Nat)) (h : (create fs p tags shapes).1 = .ok ()) :
    lookupFile (create fs p tags shapes).2 p = some (encode tags shapes) := by
  simp only [create] at h ⊢
  split_ifs at h ⊢
  all_goals exact lookupFile_writeFile _ _ _

theorem itemSizes_isSome (ds : List (Bytes × List Nat))
    (h : ∀ d ∈ ds, (pyInt (d.1.drop 2)).isSome = true) :
    ∃ zs, itemSizes ds = some zs ∧ zs.length = ds.length := by
  induction ds with
  | nil => exact ⟨[], rfl, rfl⟩
  | cons d ds ih =>
    obtain ⟨z, hz⟩ := Option.isSome_iff_exists.mp (h d (by simp))
    obtain ⟨zs, hzs, hlen⟩ := ih (fun x hx => h x (List.mem_cons_of_mem d hx))
    exact ⟨z :: zs, by simp [itemSizes, hz, hzs], by simp [hlen]⟩

theorem itemSizes_none (ds : List (Bytes × List Nat))
    (h : ∃ d ∈ ds, pyInt (d.1.drop 2) = none) : itemSizes ds = none := by
  induction ds with
  | nil => simp at h
  | cons d ds ih =>
    obtain ⟨x, hx, hnone⟩ := h
    rcases List.mem_cons.mp hx with rfl | hmem
    · simp [itemSizes, hnone]
    · rw [itemSizes, ih ⟨x, hmem, hnone⟩]
      cases pyInt (d.1.drop 2) <;> rfl

theorem offsetsFrom_length (ps : List (Int × List Nat)) (o : Int) :
    (offsetsFrom o ps).length = ps.length + 1 := by
  induction ps generalizing o with
  | nil => rfl
  | cons p ps ih => simp [offsetsFrom, ih]

theorem offsetsFrom_head (ps : List (Int × List Nat)) (o : Int) :
    (offsetsFrom o ps).head? = some o := by
  cases ps <;> rfl

/-- Every view in the returned list carries the dtype/shape of its descriptor. -/
theorem zipWith_view_map (p m : String) (ds : List (Bytes × List Nat))
    (offs : List Int) (h : ds.length ≤ offs.length) :
    (List.zipWith
      (fun d o => { fileName := p, dtype := d.1, shape := d.2,
                    mode := m, offset := o : View }) ds offs).map
      (fun v => (v.dtype, v.shape)) = ds := by
  induction ds generalizing offs with
  | nil => simp
  | cons d ds ih =>
    cases offs with
    | nil => simp at h
    | cons o offs => simp [ih offs (by simpa using h)]

/-- `open` on a file holding a valid encoded header succeeds, returning one
view per descriptor, in order, offsets threaded from the end of the header. -/
theorem openMM_encode (fs : FS) (p m : String) (tags : List Bytes)
    (shapes : List (List Nat)) (hv : validInput tags shapes)
    (hfile : lookupFile fs p = some (encode tags shapes)) :
    ∃ zs, itemSizes (tags.zip shapes) = some zs ∧
      zs.length = (tags.zip shapes).length ∧
      openMM fs p m = .ok (List.zipWith
        (fun d o => { fileName := p, dtype := d.1, shape := d.2,
                      mode := m, offset := o : View })
        (tags.zip shapes)
        (offsetsFrom ((encode tags shapes).length : Int)
          (zs.zip ((tags.zip shapes).map (fun d => d.2))))) := by
  obtain ⟨zs, hzs, hlen⟩ := itemSizes_isSome (tags.zip shapes)
    (fun d hd => (hv.2.2.1 d.1 (List.of_mem_zip hd).1).2.2.2)
  refine ⟨zs, hzs, hlen, ?_⟩
  have hdec : decodeHeader (encode tags shapes) = .ok (tags.zip shapes, []) := by
    simpa using decodeHeader_encode tags shapes [] hv
  simp only [openMM, hfile, hdec, hzs, List.length_nil, Nat.sub_zero]

/-- Every view built by the final comprehension of `open` carries the caller's
mode. -/
theorem view_mem_zipWith_mode (p m : String) (ds : List (Bytes × List Nat))
    (offs : List Int) (v : View)
    (hv : v ∈ List.zipWith
      (fun d o => { fileName := p, dtype := d.1, shape := d.2,
                    mode := m, offset := o : View }) ds offs) :
    v.mode = m := by
  induction ds generalizing offs with
  | nil => simp at hv
  | cons d ds ih =>
    cases offs with
    | nil => simp at hv
    | cons o offs =>
      rw [List.zipWith_cons_cons] at hv
      rcases List.mem_cons.mp hv with rfl | hmem
      · rfl
      · exact ih offs hmem

/-! ## Claim theorems -/

/-- **C3** Literal header encoding: `create` with type tags
`["|b1","<f4","<i8"]` and shapes `[(30,15),(8,16,32),(5,)]` leaves at the path
exactly the bytes: little-endian u64 count 3, `"|b1"` space-padded to 8 bytes,
u64 2, u64 30, u64 15, `"<f4"` space-padded, u64 3, u64 8, u64 16, u64 32,
`"<i8"` space-padded, u64 1, u64 5 — byte-for-byte, nothing else. -/
theorem literal_header_encoding :
    lookupFile (create ⟨[], []⟩ "t.memmap"
        [[124, 98, 49], [60, 102, 52], [60, 105, 56]]
        [[30, 15], [8, 16, 32], [5]]).2 "t.memmap" =
      some ([3, 0, 0, 0, 0, 0, 0, 0] ++
        [124, 98, 49, 32, 32, 32, 32, 32] ++
        [2, 0, 0, 0, 0, 0, 0, 0] ++
        [30, 0, 0, 0, 0, 0, 0, 0] ++
        [15, 0, 0, 0, 0, 0, 0, 0] ++
        [60, 102, 52, 32, 32, 32, 32, 32] ++
        [3, 0, 0, 0, 0, 0, 0, 0] ++
        [8, 0, 0, 0, 0, 0, 0, 0] ++
        [16, 0, 0, 0, 0, 0, 0, 0] ++
        [32, 0, 0, 0, 0, 0, 0, 0] ++
        [60, 105, 56, 32, 32, 32, 32, 32] ++
        [1, 0, 0, 0, 0, 0, 0, 0] ++
        [5, 0, 0, 0, 0, 0, 0, 0]) := by
  decide

/-- **C5** Validation atomicity: when `len(typeTags) != len(shapes)`, `create`
fails with the validation error and returns the filesystem unchanged — no file
removed, no directory created, no new file written. -/
theorem create_validation_atomic (fs : FS) (p : String) (tags : List Bytes)
    (shapes : List (List Nat)) (h : tags.length ≠ shapes.length) :
    create fs p tags shapes = (.error .validation, fs) := by
  simp [create, h]

theorem create_validation_atomic_witness :
    create ⟨[("old", [1])], ["d"]⟩ "Test/wut.memmap" [[60, 102, 52], [60, 105, 56]]
        [[100, 20]] = (.error .validation, ⟨[("old", [1])], ["d"]⟩) :=
  create_validation_atomic ⟨[("old", [1])], ["d"]⟩ "Test/wut.memmap"
    [[60, 102, 52], [60, 105, 56]] [[100, 20]] (by decide)

/-- **C6** Missing file: `open` on a path with no file fails with the
not-found error and returns no views. -/
theorem open_missing_file (fs : FS) (p m : String)
    (h : lookupFile fs p = none) : openMM fs p m = .error .notFound := by
  simp [openMM, h]

theorem open_missing_file_witness :
    openMM ⟨[], []⟩ "Test/lol_not_here.memmap" "readwrite" = .error .notFound :=
  open_missing_file ⟨[], []⟩ "Test/lol_not_here.memmap" "readwrite" (by decide)

/-- **C7** Uniform mode propagation: every view `open` returns carries exactly
the caller's mode; there is no per-array override. -/
theorem mode_propagation (fs : FS) (p m : String) (vs : List View)
    (h : openMM fs p m = .ok vs) : ∀ v ∈ vs, v.mode = m := by
  rw [openMM] at h
  split at h
  · exact absurd h (by simp)
  · split at h
    · exact absurd h (by simp)
    · split at h
      · exact absurd h (by simp)
      · obtain rfl := (Except.ok.injEq _ _).mp h
        intro v hv
        exact view_mem_zipWith_mode _ _ _ _ v hv

theorem mode_propagation_witness :
    View.mode { fileName := "f", dtype := [60, 105, 56], shape := [5],
                mode := "readonly", offset := 32 } = "readonly" :=
  mode_propagation ⟨[("f", encode [[60, 105, 56]] [[5]])], []⟩ "f" "readonly"
    [{ fileName := "f", dtype := [60, 105, 56], shape := [5],
       mode := "readonly", offset := 32 }] (by rfl)
    { fileName := "f", dtype := [60, 105, 56], shape := [5],
      mode := "readonly", offset := 32 } (by simp)

/-- **C8** Type-tag field width: for a valid tag (at most 8 bytes), the tag
field written by `create` is exactly 8 bytes — the tag itself then spaces —
so the dimension-count and dimension fields that follow sit at fixed offsets
8 and 16 of the descriptor. -/
theorem typeTag_field_width (t : Bytes) (s : List Nat) (h : t.length ≤ 8) :
    (padTag t).length = 8 ∧ (padTag t).take t.length = t ∧
    (∀ b ∈ (padTag t).drop t.length, b = 32) ∧
    (encodeDescriptor t s).take 8 = padTag t ∧
    (encodeDescriptor t s).drop 8 = packQ s.length ++ (s.map packQ).flatten := by
  refine ⟨padTag_length t h, ?_, ?_, ?_, ?_⟩
  · rw [padTag]; exact List.take_left t _
  · rw [padTag, List.drop_left]
    intro b hb; exact List.eq_of_mem_replicate hb
  · rw [encodeDescriptor, List.append_assoc]
    exact List.take_left' (padTag_length t h)
  · rw [encodeDescriptor, List.append_assoc]
    exact List.drop_left' (padTag_length t h)

theorem typeTag_field_width_witness :
    (padTag [60, 102, 52]).length = 8 ∧
    (padTag [60, 102, 52]).take ([60, 102, 52] : Bytes).length = [60, 102, 52] ∧
    (∀ b ∈ (padTag [60, 102, 52]).drop ([60, 102, 52] : Bytes).length, b = 32) ∧
    (encodeDescriptor [60, 102, 52] [8, 16, 32]).take 8 = padTag [60, 102, 52] ∧
    (encodeDescriptor [60, 102, 52] [8, 16, 32]).drop 8 =
      packQ ([8, 16, 32] : List Nat).length ++ ([8, 16, 32].map packQ).flatten :=
  typeTag_field_width [60, 102, 52] [8, 16, 32] (by decide)

/-- **C1** Header round-trip: for every valid non-empty `(typeTags, shapes)`
with matching lengths, opening the file produced by a successful
`create(path, typeTags, shapes)` yields views whose `(dtype, shape)` pairs
equal the original `(typeTags, shapes)` elementwise and in the same order. -/
theorem header_roundtrip (fs : FS) (p m : String) (tags : List Bytes)
    (shapes : List (List Nat)) (hv : validInput tags shapes) (hne : tags ≠ [])
    (hok : (create fs p tags shapes).1 = .ok ()) :
    ∃ vs, openMM (create fs p tags shapes).2 p m = .ok vs ∧
      vs.map (fun v => (v.dtype, v.shape)) = tags.zip shapes := by
  obtain ⟨zs, _, hzlen, hopen⟩ :=
    openMM_encode _ p m tags shapes hv (create_ok_file fs p tags shapes hok)
  refine ⟨_, hopen, zipWith_view_map p m _ _ ?_⟩
  rw [offsetsFrom_length]
  simp only [List.length_zip, List.length_map, hzlen]
  omega

theorem header_roundtrip_witness :
    ∃ vs, openMM (create ⟨[], []⟩ "f" [[60, 105, 56]] [[5]]).2 "f" "readwrite" =
        .ok vs ∧
      vs.map (fun v => (v.dtype, v.shape)) =
        ([[60, 105, 56]] : List Bytes).zip ([[5]] : List (List Nat)) :=
  header_roundtrip ⟨[], []⟩ "f" "readwrite" [[60, 105, 56]] [[5]]
    (by decide) (by decide) (by rfl)

/-- **C9 (amended)** Non-decreasing offsets: the offset sequence the offset
loop of `open` computes is non-decreasing provided every item size is
non-negative and every per-array `int(numpy.product(shape))` value is
non-negative (as holds whenever each array's exact dimension product is below
`2^63`).  Non-negative dimension lengths alone do not suffice: the wrapped
64-bit product can come out negative and the offsets then decrease — see the
counterexample. -/
theorem offsets_nondecreasing (o : Int) (ps : List (Int × List Nat))
    (h : ∀ p ∈ ps, 0 ≤ p.1 ∧ 0 ≤ prodOrZero p.2) :
    List.Chain' (· ≤ ·) (offsetsFrom o ps) := by
  induction ps generalizing o with
  | nil => simp [offsetsFrom]
  | cons p ps ih =>
    rw [offsetsFrom, List.chain'_cons']
    refine ⟨?_, ih _ (fun q hq => h q (List.mem_cons_of_mem p hq))⟩
    intro x hx
    rw [offsetsFrom_head] at hx
    have hxe : o + p.1 * prodOrZero p.2 = x := by simpa using hx
    subst hxe
    have h1 : (0 : Int) ≤ p.1 := (h p (by simp)).1
    have h2 : (0 : Int) ≤ prodOrZero p.2 := (h p (by simp)).2
    linarith [mul_nonneg h1 h2]

/-- **C9 (counterexample)** A header decodable from a file, with non-negative
dimension lengths `(2^31 + 1, 2^32)` then `(1,)` and item size 1 (`"|u1"`):
numpy's int64 product reduction wraps `(2^31+1)·2^32 = 2^63 + 2^32` to the
negative value `2^32 - 2^63`, so the second view's offset is below the first —
the offsets computed by `open` decrease. -/
theorem offsets_nondecreasing_counterexample :
    openMM ⟨[("x", encode [[124, 117, 49], [124, 117, 49]]
        [[2 ^ 31 + 1, 2 ^ 32], [1]])], []⟩ "x" "readwrite" =
      .ok [{ fileName := "x", dtype := [124, 117, 49],
             shape := [2 ^ 31 + 1, 2 ^ 32], mode := "readwrite", offset := 64 },
           { fileName := "x", dtype := [124, 117, 49], shape := [1],
             mode := "readwrite", offset := -9223372032559808448 }] ∧
    ¬ ((64 : Int) ≤ -9223372032559808448) :=
  ⟨by rfl, by decide⟩

theorem get_bang_cons_zero {α : Type} [Inhabited α] (a : α) (l : List α) :
    (a :: l).get! 0 = a := rfl

theorem get_bang_cons_succ {α : Type} [Inhabited α] (a : α) (l : List α) (n : Nat) :
    (a :: l).get! (n + 1) = l.get! n := rfl

theorem offsetsFrom_get_bang_zero (ps : List (Int × List Nat)) (o : Int) :
    (offsetsFrom o ps).get! 0 = o := by
  cases ps <;> rfl

theorem offsetsFrom_get_bang_succ (zs : List Int) (ss : List (List Nat)) (o : Int)
    (i : Nat) (h1 : i < zs.length) (h2 : i < ss.length) :
    (offsetsFrom o (zs.zip ss)).get! (i + 1) =
      (offsetsFrom o (zs.zip ss)).get! i +
        zs.get! i * prodOrZero (ss.get! i) := by
  induction i generalizing zs ss o with
  | zero =>
    cases zs with
    | nil => simp at h1
    | cons z zs =>
      cases ss with
      | nil => simp at h2
      | cons s ss =>
        simp only [List.zip_cons_cons, offsetsFrom, get_bang_cons_succ,
          get_bang_cons_zero, offsetsFrom_get_bang_zero]
  | succ i ih =>
    cases zs with
    | nil => simp at h1
    | cons z zs =>
      cases ss with
      | nil => simp at h2
      | cons s ss =>
        simp only [List.zip_cons_cons, offsetsFrom, get_bang_cons_succ]
        exact ih zs ss _ (by simpa using h1) (by simpa using h2)

theorem offsets_nondecreasing_witness :
    List.Chain' (· ≤ ·)
      (offsetsFrom 144 [(1, [10]), (2, []), (4, [4, 3, 2]), (50, [1]), (4, [2, 2])]) :=
  offsets_nondecreasing 144 [(1, [10]), (2, []), (4, [4, 3, 2]), (50, [1]), (4, [2, 2])]
    (by decide)

/-- numpy's wrapped product agrees with the ordinary product whenever that
product is below `2^63` (both the int64 and the uint64 reduction leave it
untouched). -/
theorem pyProduct_small (s : List Nat) (h : s.prod < 2 ^ 63) :
    pyProduct s = (s.prod : Int) := by
  have hm : s.prod % 2 ^ 64 = s.prod := Nat.mod_eq_of_lt (by omega)
  rw [pyProduct]
  split_ifs with h1
  · rw [toInt64, hm, if_pos h]
  · rw [hm]

theorem pyProduct_eq_zero (s : List Nat) (h : s.prod = 0) : pyProduct s = 0 := by
  rw [pyProduct, h]
  split_ifs with h1
  · simp [toInt64]
  · simp

set_option maxRecDepth 4000 in
/-- **C2 (amended)** Offset computation: for every valid `(typeTags, shapes)`
written by `create` and reopened, the first computed offset equals the header
length `8 + Σ (8 + 8 + 8·dimCount_i)`, and each subsequent offset adds
`itemSize(typeTags[i]) · P(shapes[i])` where `P` is the value
`int(numpy.product(shape))` the code actually computes: the wrapped 64-bit
reduction of the dimension product, which equals the ordinary product whenever
that product is below `2^63` (final conjunct of the first block below) but not
beyond — see the counterexample.  The product of the empty shape is 0, a shape
containing a zero dimension also contributes 0, and the spec's example inputs
yield offsets `[144, 154, 154, 250, 300]`. -/
theorem offset_computation (fs : FS) (p m : String) (tags : List Bytes)
    (shapes : List (List Nat)) (hv : validInput tags shapes)
    (hok : (create fs p tags shapes).1 = .ok ()) :
    (∃ zs offs,
      itemSizes (tags.zip shapes) = some zs ∧
      offs = offsetsFrom
        ((8 + (shapes.map (fun s => 8 + 8 + 8 * s.length)).sum : Nat) : Int)
        (zs.zip shapes) ∧
      openMM (create fs p tags shapes).2 p m =
        .ok (List.zipWith
          (fun d o => { fileName := p, dtype := d.1, shape := d.2,
                        mode := m, offset := o : View })
          (tags.zip shapes) offs) ∧
      offs.get! 0 =
        ((8 + (shapes.map (fun s => 8 + 8 + 8 * s.length)).sum : Nat) : Int) ∧
      (∀ i, i < tags.length →
        offs.get! (i + 1) =
          offs.get! i + zs.get! i * prodOrZero (shapes.get! i))) ∧
    prodOrZero [] = 0 ∧
    (∀ s : List Nat, (0 : Nat) ∈ s → prodOrZero s = 0) ∧
    (∀ s : List Nat, s.prod < 2 ^ 63 → pyProduct s = (s.prod : Int)) ∧
    (match openMM (create ⟨[], []⟩ "ex" exampleTags exampleShapes).2
        "ex" "readwrite" with
      | .ok vs => vs.map (fun v => v.offset)
      | .error _ => []) = [144, 154, 154, 250, 300] := by
  obtain ⟨zs, hzs, hzlen, hopen⟩ :=
    openMM_encode _ p m tags shapes hv (create_ok_file fs p tags shapes hok)
  have hmapsnd : (tags.zip shapes).map (fun d => d.2) = shapes :=
    List.map_snd_zip tags shapes (le_of_eq hv.1.symm)
  have hH : ((8 + (shapes.map (fun s => 8 + 8 + 8 * s.length)).sum : Nat) : Int) =
      ((encode tags shapes).length : Int) := by
    rw [encode_length tags shapes hv.1 (fun t ht => (hv.2.2.1 t ht).2.1)]
  rw [hmapsnd] at hopen
  refine ⟨⟨zs, _, hzs, rfl, ?_, offsetsFrom_get_bang_zero _ _, ?_⟩, rfl, ?_, ?_, ?_⟩
  · rw [hH]; exact hopen
  · intro i hi
    refine offsetsFrom_get_bang_succ zs shapes _ i ?_ ?_
    · have h1 := hv.1
      rw [hzlen]
      simp only [List.length_zip]
      omega
    · rw [← hv.1]; exact hi
  · intro s hs
    have hne : s ≠ [] := by rintro rfl; simp at hs
    rw [prodOrZero, if_neg (by simpa using hne)]
    exact pyProduct_eq_zero s (List.prod_eq_zero hs)
  · exact fun s h => pyProduct_small s h
  · decide

theorem offset_computation_witness :
    (∃ zs offs,
      itemSizes (exampleTags.zip exampleShapes) = some zs ∧
      offs = offsetsFrom
        ((8 + (exampleShapes.map (fun s => 8 + 8 + 8 * s.length)).sum : Nat) : Int)
        (zs.zip exampleShapes) ∧
      openMM (create ⟨[], []⟩ "ex" exampleTags exampleShapes).2 "ex" "readwrite" =
        .ok (List.zipWith
          (fun d o => { fileName := "ex", dtype := d.1, shape := d.2,
                        mode := "readwrite", offset := o : View })
          (exampleTags.zip exampleShapes) offs) ∧
      offs.get! 0 =
        ((8 + (exampleShapes.map (fun s => 8 + 8 + 8 * s.length)).sum : Nat) : Int) ∧
      (∀ i, i < exampleTags.length →
        offs.get! (i + 1) =
          offs.get! i + zs.get! i * prodOrZero (exampleShapes.get! i))) ∧
    prodOrZero [] = 0 ∧
    (∀ s : List Nat, (0 : Nat) ∈ s → prodOrZero s = 0) ∧
    (∀ s : List Nat, s.prod < 2 ^ 63 → pyProduct s = (s.prod : Int)) ∧
    (match openMM (create ⟨[], []⟩ "ex" exampleTags exampleShapes).2
        "ex" "readwrite" with
      | .ok vs => vs.map (fun v => v.offset)
      | .error _ => []) = [144, 154, 154, 250, 300] :=
  offset_computation ⟨[], []⟩ "ex" "readwrite" exampleTags exampleShapes
    (by decide) (by rfl)

/-- **C2 (counterexample)** A valid input on which the claimed recurrence with
the ordinary product is false of the program: tags `["|u1","|u1"]` (item size
1), shapes `[(2^40, 2^40), (1,)]`.  The exact product `2^80` wraps to 0 in
numpy's int64 reduction, so after create-then-open the second view's offset
equals the first (64) instead of the claimed `64 + 1·2^80`. -/
theorem offset_computation_counterexample :
    validInput [[124, 117, 49], [124, 117, 49]] [[2 ^ 40, 2 ^ 40], [1]] ∧
    openMM (create ⟨[], []⟩ "w" [[124, 117, 49], [124, 117, 49]]
        [[2 ^ 40, 2 ^ 40], [1]]).2 "w" "readwrite" =
      .ok [{ fileName := "w", dtype := [124, 117, 49], shape := [2 ^ 40, 2 ^ 40],
             mode := "readwrite", offset := 64 },
           { fileName := "w", dtype := [124, 117, 49], shape := [1],
             mode := "readwrite", offset := 64 }] ∧
    (64 : Int) ≠ 64 + 1 * (([2 ^ 40, 2 ^ 40] : List Nat).prod : Int) :=
  ⟨by decide, by rfl, by decide⟩

/-! ## Truncated headers always fail to decode -/

theorem readDims_short (s : Nat) (bs : Bytes) (h : bs.length < 8 * s) :
    readDims s bs = .error .corrupt := by
  induction s generalizing bs with
  | zero => exact absurd h (by omega)
  | succ s ih =>
    rcases Nat.lt_or_ge bs.length 8 with h8 | h8
    · simp only [readDims, readQ_short bs h8]
    · have hq : readQ bs = .ok (unpackQ (bs.take 8), bs.drop 8) := by
        rw [readQ, if_pos h8]
      have hr : readDims s (bs.drop 8) = .error .corrupt := by
        apply ih
        rw [List.length_drop]
        omega
      simp only [readDims, hq, hr]

theorem readDims_consumes (s : Nat) (bs : Bytes) (h : 8 * s <= bs.length) :
    ∃ ds, readDims s bs = .ok (ds, bs.drop (8 * s)) := by
  induction s generalizing bs with
  | zero => exact ⟨[], rfl⟩
  | succ s ih =>
    have h8 : 8 <= bs.length := by omega
    have hq : readQ bs = .ok (unpackQ (bs.take 8), bs.drop 8) := by
      rw [readQ, if_pos h8]
    obtain ⟨ds, hds⟩ := ih (bs.drop 8) (by rw [List.length_drop]; omega)
    have he : bs.drop (8 * (s + 1)) = (bs.drop 8).drop (8 * s) := by
      rw [List.drop_drop]
      congr 1
      omega
    exact ⟨unpackQ (bs.take 8) :: ds, by simp only [readDims, hq, hds, he]⟩

/-- Parsing one descriptor from a strict prefix of its encoding fails: either
the dimension-count read or a dimension read runs off the end of the stream
(the tag read itself never errors, matching `infile.read(8).strip()`). -/
theorem readDescr_trunc (t : Bytes) (s : List Nat) (htl : t.length <= 8)
    (hsl : s.length < 2 ^ 64) (k : Nat) (hk : k < (encodeDescriptor t s).length) :
    readDescr ((encodeDescriptor t s).take k) = .error .corrupt := by
  have hlen := encodeDescriptor_length t s htl
  rcases Nat.lt_or_ge k 16 with h16 | h16
  · have h1 : (((encodeDescriptor t s).take k).drop 8).length < 8 := by
      rw [List.length_drop, List.length_take]
      omega
    simp only [readDescr, readQ_short _ h1]
  · have hassoc : encodeDescriptor t s =
        padTag t ++ (packQ s.length ++ (s.map packQ).flatten) := by
      simp [encodeDescriptor]
    have e1 : ((encodeDescriptor t s).take k).drop 8 =
        (packQ s.length ++ (s.map packQ).flatten).take (k - 8) := by
      rw [List.drop_take, hassoc, List.drop_left' (padTag_length t htl)]
    have e2 : ((packQ s.length ++ (s.map packQ).flatten).take (k - 8)).take 8 =
        packQ s.length := by
      rw [List.take_take, show min 8 (k - 8) = 8 from by omega]
      exact packQ_append_take s.length _
    have e3 : ((packQ s.length ++ (s.map packQ).flatten).take (k - 8)).drop 8 =
        ((s.map packQ).flatten).take (k - 16) := by
      rw [List.drop_take, packQ_append_drop,
        show k - 8 - 8 = k - 16 from by omega]
    have hq : readQ (((encodeDescriptor t s).take k).drop 8) =
        .ok (s.length, ((s.map packQ).flatten).take (k - 16)) := by
      rw [e1, readQ, if_pos ?_, e2, e3, unpackQ_packQ _ hsl]
      rw [List.length_take, List.length_append, packQ_length,
        flatten_map_packQ_length]
      omega
    have hdims : readDims s.length (((s.map packQ).flatten).take (k - 16)) =
        .error .corrupt := by
      apply readDims_short
      rw [List.length_take, flatten_map_packQ_length]
      omega
    simp only [readDescr, hq, hdims]

/-- Parsing one descriptor from its complete encoding followed by anything
consumes exactly the encoding (whatever the remainder holds). -/
theorem readDescr_consumes (t : Bytes) (s : List Nat) (r : Bytes)
    (htl : t.length <= 8) (hsl : s.length < 2 ^ 64) :
    ∃ tg dims, readDescr (encodeDescriptor t s ++ r) = .ok ((tg, dims), r) := by
  have hassoc : encodeDescriptor t s ++ r =
      padTag t ++ (packQ s.length ++ ((s.map packQ).flatten ++ r)) := by
    simp [encodeDescriptor]
  have e1 : (encodeDescriptor t s ++ r).drop 8 =
      packQ s.length ++ ((s.map packQ).flatten ++ r) := by
    rw [hassoc]
    exact List.drop_left' (padTag_length t htl)
  have hq : readQ ((encodeDescriptor t s ++ r).drop 8) =
      .ok (s.length, (s.map packQ).flatten ++ r) := by
    rw [e1]
    exact readQ_packQ s.length _ hsl
  obtain ⟨ds, hds⟩ := readDims_consumes s.length ((s.map packQ).flatten ++ r)
    (by rw [List.length_append, flatten_map_packQ_length]; omega)
  rw [List.drop_left' (flatten_map_packQ_length s)] at hds
  exact ⟨strip ((encodeDescriptor t s ++ r).take 8), ds,
    by simp only [readDescr, hq, hds]⟩

theorem readDescrs_trunc (ds : List (Bytes × List Nat))
    (hv : ∀ d ∈ ds, d.1.length <= 8 ∧ d.2.length < 2 ^ 64) (k : Nat)
    (hk : k < ((ds.map (fun d => encodeDescriptor d.1 d.2)).flatten).length) :
    readDescrs ds.length
      (((ds.map (fun d => encodeDescriptor d.1 d.2)).flatten).take k) =
      .error .corrupt := by
  induction ds generalizing k with
  | nil => simp at hk
  | cons d ds ih =>
    obtain ⟨h1, h2⟩ := hv d (by simp)
    rw [List.map_cons, List.flatten_cons] at hk ⊢
    rcases Nat.lt_or_ge k (encodeDescriptor d.1 d.2).length with hlt | hge
    · have ht : (encodeDescriptor d.1 d.2 ++
          (ds.map (fun d => encodeDescriptor d.1 d.2)).flatten).take k =
          (encodeDescriptor d.1 d.2).take k := by
        rw [List.take_append_eq_append_take,
          show k - (encodeDescriptor d.1 d.2).length = 0 from by omega,
          List.take_zero, List.append_nil]
      rw [ht]
      have hde := readDescr_trunc d.1 d.2 h1 h2 k hlt
      simp only [List.length_cons, readDescrs, hde]
    · have ht : (encodeDescriptor d.1 d.2 ++
          (ds.map (fun d => encodeDescriptor d.1 d.2)).flatten).take k =
          encodeDescriptor d.1 d.2 ++
            ((ds.map (fun d => encodeDescriptor d.1 d.2)).flatten).take
              (k - (encodeDescriptor d.1 d.2).length) := by
        rw [List.take_append_eq_append_take, List.take_of_length_le hge]
      rw [ht]
      obtain ⟨tg, dims, hcons⟩ := readDescr_consumes d.1 d.2
        (((ds.map (fun d => encodeDescriptor d.1 d.2)).flatten).take
          (k - (encodeDescriptor d.1 d.2).length)) h1 h2
      have hih := ih (fun x hx => hv x (List.mem_cons_of_mem d hx))
        (k - (encodeDescriptor d.1 d.2).length)
        (by rw [List.length_append] at hk; omega)
      simp only [List.length_cons, readDescrs, hcons, hih]

/-- **C4** Decode truncation: for every valid header and every strict prefix of
its encoded bytes — a stream that ends before some required field (count, type
tag, dimension count, or a dimension length) is fully read — the
header-reading phase of `open` fails with the corrupt-header error rather than
succeeding or misreading. -/
theorem decode_truncation (tags : List Bytes) (shapes : List (List Nat))
    (hv : validInput tags shapes) (k : Nat)
    (hk : k < (encode tags shapes).length) :
    decodeHeader ((encode tags shapes).take k) = .error .corrupt := by
  obtain ⟨heq, hn, htags, hshapes⟩ := hv
  rcases Nat.lt_or_ge k 8 with h8 | h8
  · have hlen : ((encode tags shapes).take k).length < 8 := by
      rw [List.length_take]
      omega
    simp only [decodeHeader, readQ_short _ hlen]
  · have henc : encode tags shapes = packQ tags.length ++
        ((tags.zip shapes).map (fun d => encodeDescriptor d.1 d.2)).flatten := by
      rw [encode, zipWith_encodeDescriptor_eq]
    have ht : (encode tags shapes).take k = packQ tags.length ++
        (((tags.zip shapes).map (fun d => encodeDescriptor d.1 d.2)).flatten).take
          (k - 8) := by
      rw [henc, List.take_append_eq_append_take,
        List.take_of_length_le (by rw [packQ_length]; exact h8), packQ_length]
    have hkE : k - 8 <
        (((tags.zip shapes).map (fun d => encodeDescriptor d.1 d.2)).flatten).length := by
      have h1 : (encode tags shapes).length = 8 +
          (((tags.zip shapes).map (fun d => encodeDescriptor d.1 d.2)).flatten).length := by
        rw [henc, List.length_append, packQ_length]
      omega
    have htrunc := readDescrs_trunc (tags.zip shapes)
      (fun d hd => ⟨(htags d.1 (List.of_mem_zip hd).1).2.1,
        (hshapes d.2 (List.of_mem_zip hd).2).1⟩) (k - 8) hkE
    have hzlen : (tags.zip shapes).length = tags.length := by
      rw [List.length_zip]
      omega
    rw [hzlen] at htrunc
    have hq := readQ_packQ tags.length
      ((((tags.zip shapes).map (fun d => encodeDescriptor d.1 d.2)).flatten).take
        (k - 8)) hn
    simp only [decodeHeader, ht, hq, htrunc]

theorem decode_truncation_witness :
    decodeHeader ((encode [[60, 105, 56]] [[5]]).take 20) = .error .corrupt :=
  decode_truncation [[60, 105, 56]] [[5]] (by decide) 20 (by decide)

/-! ## The item-size suffix parse of `open` -/

theorem isDigit_not_space (b : Nat) (h : isDigit b = true) : isPySpace b = false := by
  simp only [isDigit, Bool.and_eq_true, decide_eq_true_eq] at h
  simp only [isPySpace, Bool.or_eq_false_iff, beq_eq_false_iff_ne, ne_eq]
  omega

/-- `strip` is the identity on a whitespace-free byte string. -/
theorem strip_id (bs : Bytes) (h : ∀ b ∈ bs, isPySpace b = false) :
    strip bs = bs := by
  rcases List.eq_nil_or_concat bs with rfl | ⟨l, a, hc⟩
  · rfl
  · rw [List.concat_eq_append] at hc
    subst hc
    have ha : isPySpace a = false := h a (by simp)
    have h1 : (l ++ [a]).dropWhile isPySpace = l ++ [a] := by
      cases l with
      | nil => simpa using dropWhile_of_head isPySpace a [] ha
      | cons b l2 => exact dropWhile_of_head isPySpace b _ (h b (by simp))
    have h2 : ((l ++ [a]).reverse).dropWhile isPySpace = (l ++ [a]).reverse := by
      have hr : (l ++ [a]).reverse = a :: l.reverse := by simp
      rw [hr]
      exact dropWhile_of_head isPySpace a _ ha
    rw [strip, h1, h2, List.reverse_reverse]

theorem pyDigits_all_digits (bs : Bytes) (acc : Nat)
    (h : ∀ b ∈ bs, isDigit b = true) :
    pyDigits bs acc = some (bs.foldl (fun a b => 10 * a + (b - 48)) acc) := by
  induction bs generalizing acc with
  | nil => rfl
  | cons b rest ih =>
    rw [pyDigits.eq_def]
    simp only [if_pos (h b (by simp)), List.foldl_cons]
    exact ih _ (fun x hx => h x (List.mem_cons_of_mem b hx))

/-- On a plain decimal numeral, Python's `int` returns the numeral's value. -/
theorem pyInt_numeral (bs : Bytes) (h : isNumeral bs) :
    pyInt bs = some ((numVal bs : Nat) : Int) := by
  obtain ⟨hne, hdig⟩ := h
  have hstrip : ((bs.dropWhile isPySpace).reverse.dropWhile isPySpace).reverse = bs :=
    strip_id bs (fun b hb => isDigit_not_space b (hdig b hb))
  cases bs with
  | nil => exact absurd rfl hne
  | cons b rest =>
    have hb : isDigit b = true := hdig b (by simp)
    have hb43 : ¬ b = 43 := by
      simp only [isDigit, Bool.and_eq_true, decide_eq_true_eq] at hb
      omega
    have hb45 : ¬ b = 45 := by
      simp only [isDigit, Bool.and_eq_true, decide_eq_true_eq] at hb
      omega
    simp only [pyInt, hstrip, if_neg hb43, if_neg hb45, if_pos hb,
      pyDigits_all_digits rest (b - 48)
        (fun x hx => hdig x (List.mem_cons_of_mem b hx)),
      Option.map_some, numVal, List.foldl_cons]
    norm_num

/-- **C10 (amended)** Item size by suffix parse: `open` derives the element
byte width from the decoded tag's bytes after the first two via Python's `int`.
A suffix that is a plain decimal numeral yields exactly that numeral's value;
when the suffix fails Python's integer parse, `open` fails.  (Python's `int`
also accepts some non-numeral suffixes — an optional sign, underscores between
digits, surrounding whitespace — so a non-numeral suffix such as `"+4"` does
not by itself make the offset phase fail; see the counterexample.) -/
theorem itemSize_suffix_parse :
    (∀ t : Bytes, isNumeral (t.drop 2) →
      pyInt (t.drop 2) = some ((numVal (t.drop 2) : Nat) : Int)) ∧
    (∀ (fs : FS) (p m : String) (bs : Bytes) (ds : List (Bytes × List Nat))
      (rest : Bytes), lookupFile fs p = some bs →
      decodeHeader bs = .ok (ds, rest) →
      (∃ d ∈ ds, pyInt (d.1.drop 2) = none) →
      openMM fs p m = .error .badTypeTag) := by
  constructor
  · intro t h
    exact pyInt_numeral _ h
  · intro fs p m bs ds rest hfile hdec hex
    simp only [openMM, hfile, hdec, itemSizes_none ds hex]

theorem itemSize_suffix_parse_witness :
    pyInt (([60, 102, 52] : Bytes).drop 2) =
      some ((numVal (([60, 102, 52] : Bytes).drop 2) : Nat) : Int) ∧
    openMM ⟨[("y", encode [[60, 102, 88]] [[1]])], []⟩ "y" "readwrite" =
      .error .badTypeTag :=
  ⟨itemSize_suffix_parse.1 [60, 102, 52] (by decide),
   itemSize_suffix_parse.2 ⟨[("y", encode [[60, 102, 88]] [[1]])], []⟩ "y"
     "readwrite" (encode [[60, 102, 88]] [[1]]) [([60, 102, 88], [1])] []
     (by rfl) (by rfl) ⟨([60, 102, 88], [1]), by simp, by rfl⟩⟩

/-- **C10 (counterexample)** The tag `"<f+4"` decodes fine, its suffix `"+4"`
is not a decimal numeral, yet the offset phase of `open` succeeds (Python's
`int(b"+4")` is 4) and `open` hands the mapping facility a view request rather
than failing during the parse. -/
theorem itemSize_suffix_counterexample :
    ¬ isNumeral (([60, 102, 43, 52] : Bytes).drop 2) ∧
    openMM ⟨[("x", encode [[60, 102, 43, 52]] [[1]])], []⟩ "x" "readwrite" =
      .ok [{ fileName := "x", dtype := [60, 102, 43, 52], shape := [1],
             mode := "readwrite", offset := 32 }] :=
  ⟨by decide, by rfl⟩

end MemoryMap
